import Mathlib

/-!
Verification development for the `language-srs` repository.

The repository builds spaced-repetition study decks from timestamped
transcripts and audio: it parses transcripts into raw entries, merges the
entries into playback-worthy segments, refines segment endpoints against a
short-time energy profile of the audio, and renders timestamps for an
external media tool.  This file gives a shallow embedding of those
components over exact arithmetic and proves or refutes the specification
claims about them.

Modelling conventions:
* Python floats are modelled by `ℚ` (exact real arithmetic), Python
  `int(x)` truncation by `pyInt`, Python `//` and `%` on integers by
  floored division and remainder.
* Python strings are sequences of code points, modelled by `List Char`;
  the helpers `pyStrip`, `pySplit`, `pySplitOnce` model `str.strip`,
  `str.split` and `str.split(sep, 1)`.
* Audio energy: the Python code only ever uses RMS values in comparisons
  of the form `rms / max < threshold` (and `max > 0`).  Since the square
  root is monotone and all quantities are nonnegative, the embedding
  carries the mean of squared samples per frame (the square of the RMS)
  and squares the threshold side of each comparison; this is an exact
  model of every branch the code takes, while staying inside `ℚ`.
-/

/-- Python `int(x)` on a float: truncation toward zero. -/
def pyInt (q : ℚ) : ℤ := if 0 ≤ q then ⌊q⌋ else -⌊-q⌋

/-- Python `a % b` on floats (the sign follows the divisor: floored
remainder). -/
def pyMod (a b : ℚ) : ℚ := a - b * ⌊a / b⌋

/-- Python slice `l[a:b]` for the nonnegative indices that occur in this
pipeline (negative wrap-around indexing never arises in the claims settled
here). -/
def pySlice (l : List ℚ) (a b : ℤ) : List ℚ := (l.take b.toNat).drop a.toNat

/-- `numpy`-style max of a list of nonnegative rationals (`rms.max()`);
all uses are on mean-square values, which are nonnegative, so anchoring
the fold at `0` is exact. -/
def maxQ (l : List ℚ) : ℚ := l.foldl max 0

/-- Python `str.strip()`: remove leading and trailing whitespace (the
transcripts only contain spaces and newlines, all covered by
`Char.isWhitespace`). -/
def pyStrip (s : List Char) : List Char :=
  ((s.dropWhile Char.isWhitespace).reverse.dropWhile Char.isWhitespace).reverse

/-- Helper for Python `s.split(sep)` with a nonempty separator, via
fuel-based recursion (fuel `s.length + 1` always suffices). -/
def pySplitAux (sep : List Char) : ℕ → List Char → List Char → List (List Char)
  | 0, cur, s => [cur ++ s]
  | fuel + 1, cur, s =>
    if sep.isPrefixOf s ∧ sep ≠ [] then
      cur :: pySplitAux sep fuel [] (s.drop sep.length)
    else
      match s with
      | [] => [cur]
      | c :: rest => pySplitAux sep fuel (cur ++ [c]) rest

/-- Python `s.split(sep)` (nonempty separator). -/
def pySplit (sep s : List Char) : List (List Char) :=
  pySplitAux sep (s.length + 1) [] s

/-- Python `s.split(sep, 1)[1]`: everything after the first occurrence of
`sep` (only used under an `in` guard, like the source). -/
def pySplitOnce (sep s : List Char) : List Char :=
  match pySplit sep s with
  | [] => s
  | [_] => s
  | _ :: rest => List.intercalate sep rest

/-- A transcript entry or (finalized) segment: `{start_sec, end_sec, text}`. -/
structure Seg where
  start_sec : ℚ
  end_sec : ℚ
  text : List Char
deriving DecidableEq, Repr

/-- The mutable merge accumulator `{start_sec, end_sec, texts}`. -/
structure MergeAcc where
  start_sec : ℚ
  end_sec : ℚ
  texts : List (List Char)
deriving DecidableEq, Repr

/-- The tunable merge constants (`MIN_SEGMENT_DURATION`, `MAX_GAP_TO_MERGE`,
`MAX_MERGED_DURATION`) shared by the build scripts. -/
structure MergeConfig where
  min_segment_duration : ℚ
  max_gap_to_merge : ℚ
  max_merged_duration : ℚ
deriving DecidableEq, Repr

/-- The ` / ` separator used by `finalize_segment` to join texts. -/
def joinSep : List Char := " / ".data

/-- `finalize_segment`: join the accumulated texts with ` / `
(build_srs.py lines 199-204, identical in the other build scripts). -/
def finalize_segment (current : MergeAcc) : Seg :=
  ⟨current.start_sec, current.end_sec, List.intercalate joinSep current.texts⟩

namespace BuildSrs

/-- `DROP_TEXTS` from build_srs.py. -/
def DROP_TEXTS : List (List Char) :=
  ["目標に前段命中!".data, "せーの!".data, "はぁ".data, "じゃ".data,
   "父さん".data, "頼む".data]

/-- `DROP_IF_ISOLATED` from build_srs.py. -/
def DROP_IF_ISOLATED : List (List Char) :=
  ["はい".data, "そう".data, "そうね".data]

/-- The vocative/address terms hard-coded in `merge_segments` (line 157). -/
def VOCATIVES : List (List Char) :=
  ["イカリシンジ君".data, "シンジ君".data, "レイ".data, "冬月".data,
   "副司令".data]

/-- `EXCLUDE_RANGES` from build_srs.py. -/
def EXCLUDE_RANGES : List (ℚ × ℚ) := [(0, 112), (1344, 1400)]

/-- The merge decision of build_srs.py `merge_segments` (lines 142-158):
duration/gap base rule plus the question/vocative heuristics. -/
def should_merge (cfg : MergeConfig) (cur : MergeAcc) (e : Seg) : Bool :=
  let current_duration := cur.end_sec - cur.start_sec
  let gap := e.start_sec - cur.end_sec
  let current_text := pyStrip (cur.texts.getLast?.getD [])
  let base : Bool :=
    if current_duration < cfg.min_segment_duration then
      if gap ≤ cfg.max_gap_to_merge then true
      else if gap ≤ 3 ∧ current_duration < 1 then true
      else false
    else if gap ≤ 1/2 then
      if e.end_sec - cur.start_sec ≤ cfg.max_merged_duration then true else false
    else false
  let heur : Bool :=
    if gap ≤ 2 then
      "?".data.isSuffixOf current_text || "か".data.isSuffixOf current_text ||
        VOCATIVES.contains current_text
    else false
  base || heur

/-- Does the accumulator consist of exactly one text matching
`DROP_IF_ISOLATED`? (build_srs.py lines 173, 190). -/
def isolatedFiller (cur : MergeAcc) : Bool :=
  cur.texts.length = 1 &&
    DROP_IF_ISOLATED.contains (pyStrip (cur.texts.head?.getD []))

/-- The loop body of build_srs.py `merge_segments` (lines 136-195), with the
accumulator threaded explicitly; the `[]` case implements the final
isolated-filler check (lines 190-195). -/
def merge_loop (cfg : MergeConfig) (cur : MergeAcc) : List Seg → List Seg
  | [] =>
    if isolatedFiller cur then
      if 1 ≤ cur.end_sec - cur.start_sec then [finalize_segment cur] else []
    else [finalize_segment cur]
  | e :: rest =>
    if should_merge cfg cur e then
      if e.end_sec - cur.start_sec ≤ cfg.max_merged_duration then
        merge_loop cfg ⟨cur.start_sec, e.end_sec, cur.texts ++ [e.text]⟩ rest
      else
        finalize_segment cur ::
          merge_loop cfg ⟨e.start_sec, e.end_sec, [e.text]⟩ rest
    else
      if isolatedFiller cur ∧ cur.end_sec - cur.start_sec < 1 then
        merge_loop cfg ⟨e.start_sec, e.end_sec, [e.text]⟩ rest
      else
        finalize_segment cur ::
          merge_loop cfg ⟨e.start_sec, e.end_sec, [e.text]⟩ rest

/-- build_srs.py `merge_segments` (lines 125-197). -/
def merge_segments (cfg : MergeConfig) (segments : List Seg) : List Seg :=
  match segments with
  | [] => []
  | s :: rest => merge_loop cfg ⟨s.start_sec, s.end_sec, [s.text]⟩ rest

end BuildSrs

namespace BuildEvangelion

/-- The merge decision of build_evangelion.py `merge_segments`
(lines 132-140): no heuristics, no very-short extension rule. -/
def should_merge (cfg : MergeConfig) (cur : MergeAcc) (e : Seg) : Bool :=
  let current_duration := cur.end_sec - cur.start_sec
  let gap := e.start_sec - cur.end_sec
  if current_duration < cfg.min_segment_duration then
    if gap ≤ cfg.max_gap_to_merge then true else false
  else if gap ≤ 1/2 then
    if e.end_sec - cur.start_sec ≤ cfg.max_merged_duration then true else false
  else false

/-- The loop body of build_evangelion.py `merge_segments` (lines 127-162). -/
def merge_loop (cfg : MergeConfig) (cur : MergeAcc) : List Seg → List Seg
  | [] => [finalize_segment cur]
  | e :: rest =>
    if should_merge cfg cur e then
      if e.end_sec - cur.start_sec ≤ cfg.max_merged_duration then
        merge_loop cfg ⟨cur.start_sec, e.end_sec, cur.texts ++ [e.text]⟩ rest
      else
        finalize_segment cur ::
          merge_loop cfg ⟨e.start_sec, e.end_sec, [e.text]⟩ rest
    else
      finalize_segment cur ::
        merge_loop cfg ⟨e.start_sec, e.end_sec, [e.text]⟩ rest

/-- build_evangelion.py `merge_segments` (lines 116-163). -/
def merge_segments (cfg : MergeConfig) (segments : List Seg) : List Seg :=
  match segments with
  | [] => []
  | s :: rest => merge_loop cfg ⟨s.start_sec, s.end_sec, [s.text]⟩ rest

end BuildEvangelion

/-- The merge constants of build_srs.py and build_evangelion.py. -/
def srsMergeConfig : MergeConfig := ⟨3, 3/2, 12⟩

section MergeCap

/-- Invariant proof for the srs merge loop: if the open accumulator and all
remaining entries obey the duration cap, so does every emitted segment. -/
lemma BuildSrs.srs_merge_loop_cap (cfg : MergeConfig) :
    ∀ (entries : List Seg) (cur : MergeAcc),
      cur.end_sec - cur.start_sec ≤ cfg.max_merged_duration →
      (∀ e ∈ entries, e.end_sec - e.start_sec ≤ cfg.max_merged_duration) →
      ∀ s ∈ BuildSrs.merge_loop cfg cur entries,
        s.end_sec - s.start_sec ≤ cfg.max_merged_duration := by
  intro entries
  induction entries with
  | nil =>
    intro cur hcur _ s hs
    simp only [BuildSrs.merge_loop] at hs
    split at hs
    · split at hs
      · rw [List.mem_singleton.mp hs]
        simpa [finalize_segment] using hcur
      · simp at hs
    · rw [List.mem_singleton.mp hs]
      simpa [finalize_segment] using hcur
  | cons e rest ih =>
    intro cur hcur hents s hs
    have he : e.end_sec - e.start_sec ≤ cfg.max_merged_duration :=
      hents e (by simp)
    have hrest : ∀ x ∈ rest, x.end_sec - x.start_sec ≤ cfg.max_merged_duration :=
      fun x hx => hents x (by simp [hx])
    simp only [BuildSrs.merge_loop] at hs
    split at hs
    · split at hs
      · exact ih _ (by simpa using ‹e.end_sec - cur.start_sec ≤ _›) hrest s hs
      · rcases List.mem_cons.mp hs with h | h
        · rw [h]; simpa [finalize_segment] using hcur
        · exact ih _ (by simpa using he) hrest s h
    · split at hs
      · exact ih _ (by simpa using he) hrest s hs
      · rcases List.mem_cons.mp hs with h | h
        · rw [h]; simpa [finalize_segment] using hcur
        · exact ih _ (by simpa using he) hrest s h

/-- Invariant proof for the evangelion merge loop, as for the srs one. -/
lemma BuildEvangelion.eva_merge_loop_cap (cfg : MergeConfig) :
    ∀ (entries : List Seg) (cur : MergeAcc),
      cur.end_sec - cur.start_sec ≤ cfg.max_merged_duration →
      (∀ e ∈ entries, e.end_sec - e.start_sec ≤ cfg.max_merged_duration) →
      ∀ s ∈ BuildEvangelion.merge_loop cfg cur entries,
        s.end_sec - s.start_sec ≤ cfg.max_merged_duration := by
  intro entries
  induction entries with
  | nil =>
    intro cur hcur _ s hs
    simp only [BuildEvangelion.merge_loop] at hs
    rw [List.mem_singleton.mp hs]
    simpa [finalize_segment] using hcur
  | cons e rest ih =>
    intro cur hcur hents s hs
    have he : e.end_sec - e.start_sec ≤ cfg.max_merged_duration :=
      hents e (by simp)
    have hrest : ∀ x ∈ rest, x.end_sec - x.start_sec ≤ cfg.max_merged_duration :=
      fun x hx => hents x (by simp [hx])
    simp only [BuildEvangelion.merge_loop] at hs
    split at hs
    · split at hs
      · exact ih _ (by simpa using ‹e.end_sec - cur.start_sec ≤ _›) hrest s hs
      · rcases List.mem_cons.mp hs with h | h
        · rw [h]; simpa [finalize_segment] using hcur
        · exact ih _ (by simpa using he) hrest s h
    · rcases List.mem_cons.mp hs with h | h
      · rw [h]; simpa [finalize_segment] using hcur
      · exact ih _ (by simpa using he) hrest s h

end MergeCap

/-- C1 (counterexample): a single raw entry that is itself longer than
`MAX_MERGED_DURATION` is used as the accumulator seed and finalized as-is,
so the merge pass of build_srs.py and of build_evangelion.py emits a
segment with `end - start = 20 > 12` under their configured constants.
This refutes the claim that every finalized segment satisfies the cap,
in particular for a never-extended single-entry accumulator seed. -/
theorem c1_merge_duration_cap_counterexample :
    ¬ (∀ s ∈ BuildSrs.merge_segments srsMergeConfig [⟨0, 20, []⟩],
        s.end_sec - s.start_sec ≤ srsMergeConfig.max_merged_duration) ∧
    ¬ (∀ s ∈ BuildEvangelion.merge_segments srsMergeConfig [⟨0, 20, []⟩],
        s.end_sec - s.start_sec ≤ srsMergeConfig.max_merged_duration) := by
  constructor <;> · with_unfolding_all decide

/-- C1 (amended): for every ordered input sequence and every configuration,
if every raw entry itself satisfies `end - start <= max_merged_duration`,
then every segment produced by the merge pass (`merge_segments` of
build_srs.py and of build_evangelion.py, as finalized by
`finalize_segment`) satisfies `end - start <= max_merged_duration`. -/
theorem c1_merge_duration_cap (cfg : MergeConfig) (entries : List Seg)
    (hent : ∀ e ∈ entries, e.end_sec - e.start_sec ≤ cfg.max_merged_duration) :
    (∀ s ∈ BuildSrs.merge_segments cfg entries,
        s.end_sec - s.start_sec ≤ cfg.max_merged_duration) ∧
    (∀ s ∈ BuildEvangelion.merge_segments cfg entries,
        s.end_sec - s.start_sec ≤ cfg.max_merged_duration) := by
  match entries with
  | [] =>
    exact ⟨by simp [BuildSrs.merge_segments],
           by simp [BuildEvangelion.merge_segments]⟩
  | s :: rest =>
    have hs : s.end_sec - s.start_sec ≤ cfg.max_merged_duration := hent s (by simp)
    have hrest : ∀ x ∈ rest, x.end_sec - x.start_sec ≤ cfg.max_merged_duration :=
      fun x hx => hent x (by simp [hx])
    exact ⟨BuildSrs.srs_merge_loop_cap cfg rest _ hs hrest,
           BuildEvangelion.eva_merge_loop_cap cfg rest _ hs hrest⟩

/-- C1 witness: the amended cap theorem applied at a concrete input. -/
theorem c1_merge_duration_cap_witness :
    (∀ e ∈ [(⟨0, 2, []⟩ : Seg), ⟨5, 9, []⟩],
        e.end_sec - e.start_sec ≤ srsMergeConfig.max_merged_duration) ∧
    (∀ s ∈ BuildSrs.merge_segments srsMergeConfig [⟨0, 2, []⟩, ⟨5, 9, []⟩],
        s.end_sec - s.start_sec ≤ srsMergeConfig.max_merged_duration) :=
  ⟨by with_unfolding_all decide,
   (c1_merge_duration_cap srsMergeConfig _ (by with_unfolding_all decide)).1⟩

namespace BuildSrs

/-- Decimal digit value of a character, as a rational. -/
def digitVal (c : Char) : ℚ := ((c.toNat - 48 : ℕ) : ℚ)

/-- The timestamp-line pattern of build_srs.py `parse_transcript`
(regex `^(\d{2}:\d{2})-(\d{2}:\d{2})$`, line 94) combined with
`time_to_seconds` (minutes `*60` plus seconds, lines 50-52). -/
def matchTimestamp (s : List Char) : Option (ℚ × ℚ) :=
  match s with
  | [a, b, c1, c, d, dash, e, f, c2, g, h] =>
    if a.isDigit ∧ b.isDigit ∧ c.isDigit ∧ d.isDigit ∧ e.isDigit ∧ f.isDigit ∧
        g.isDigit ∧ h.isDigit ∧ c1 = ':' ∧ c2 = ':' ∧ dash = '-' then
      some ((digitVal a * 10 + digitVal b) * 60 + (digitVal c * 10 + digitVal d),
            (digitVal e * 10 + digitVal f) * 60 + (digitVal g * 10 + digitVal h))
    else none
  | _ => none

/-- Python `line.split('→', 1)[1]` guarded by `'→' in line`
(build_srs.py lines 91-92): drop everything up to and including the first
arrow; a line without an arrow is kept unchanged. -/
def stripArrow (s : List Char) : List Char := pySplitOnce "→".data s

/-- `is_excluded` from build_srs.py (lines 65-69), with the exclusion table
passed explicitly (`EXCLUDE_RANGES` is the module constant). -/
def is_excluded (excludeRanges : List (ℚ × ℚ)) (start_sec : ℚ) : Bool :=
  excludeRanges.any fun p => decide (p.1 ≤ start_sec) && decide (start_sec ≤ p.2)

/-- Python's Unicode `str.isalpha`, modelled for the character repertoire of
this repository: ASCII letters plus the kana (U+3040-U+30FF) and unified
CJK (U+4E00-U+9FFF) blocks, which are the only non-ASCII alphabetic
characters appearing in the transcripts and drop lists embedded here. -/
def pyIsAlpha (c : Char) : Bool :=
  c.isAlpha || (0x3040 ≤ c.toNat && c.toNat ≤ 0x30FF) ||
    (0x4E00 ≤ c.toNat && c.toNat ≤ 0x9FFF)

/-- `is_english` from build_srs.py (lines 71-76): more than half of the
alphabetic characters are ASCII letters. -/
def is_english (text : List Char) : Bool :=
  let ascii_letters : ℕ := text.countP fun c => c.toNat < 128 && pyIsAlpha c
  let total_letters : ℕ := text.countP pyIsAlpha
  if total_letters = 0 then false
  else decide ((ascii_letters : ℚ) / (total_letters : ℚ) > 1/2)

/-- `should_drop` from build_srs.py (lines 78-79). -/
def should_drop (text : List Char) : Bool := DROP_TEXTS.contains (pyStrip text)

/-- The text block being collected for the current timestamp. -/
structure PendingEntry where
  s : ℚ
  e : ℚ
  texts : List (List Char)
deriving DecidableEq, Repr

/-- Emit the collected entry, applying the filters of build_srs.py
line 114: non-empty text, not excluded, not English, not dropped. -/
def emitPending (excludeRanges : List (ℚ × ℚ)) : Option PendingEntry → List Seg
  | none => []
  | some p =>
    let text := List.intercalate " ".data p.texts
    if !text.isEmpty && !is_excluded excludeRanges p.s && !is_english text &&
        !should_drop text then
      [⟨p.s, p.e, text⟩]
    else []

/-- The line scan of build_srs.py `parse_transcript` (lines 89-121).  The
source's nested while loops visit each line exactly once: a timestamp line
closes the pending entry and opens a new one; inside a text block a blank
or timestamp line closes the block (the closing line is then re-examined
by the outer loop, which this linearized single pass reproduces); any
other line outside a block is skipped. -/
def parse_lines (excludeRanges : List (ℚ × ℚ)) :
    Option PendingEntry → List (List Char) → List Seg
  | pending, [] => emitPending excludeRanges pending
  | pending, l :: rest =>
    let t := stripArrow (pyStrip l)
    match matchTimestamp t with
    | some (s, e) =>
      emitPending excludeRanges pending ++
        parse_lines excludeRanges (some ⟨s, e, []⟩) rest
    | none =>
      match pending with
      | some p =>
        if t.isEmpty then
          emitPending excludeRanges pending ++ parse_lines excludeRanges none rest
        else parse_lines excludeRanges (some ⟨p.s, p.e, p.texts ++ [t]⟩) rest
      | none => parse_lines excludeRanges none rest

/-- build_srs.py `parse_transcript` (lines 81-123), on the file's content
(`content.strip().split('\n')`), with the exclusion table passed
explicitly. -/
def parse_transcript (excludeRanges : List (ℚ × ℚ)) (content : List Char) :
    List Seg :=
  parse_lines excludeRanges none ((pyStrip content).splitOn '\n')

end BuildSrs

/-- The two-entry transcript of the specification's merge scenario. -/
def scenarioTranscript : List Char :=
  "00:10-00:12\nこんにちは\n\n00:13-00:14\nはい\n".data

/-- The nominal `(start, end)` pair of a segment, used to state concrete
evaluations componentwise. -/
def segTimes (s : Seg) : ℚ × ℚ := (s.start_sec, s.end_sec)

set_option maxRecDepth 20000 in
/-- C6 (counterexample): build_srs.py's `parse_transcript` filters out any
entry whose start lies inside a configured excluded range, and the module
constant `EXCLUDE_RANGES` contains `(0, 112)`; the scenario entries start
at 10s and 13s, so with the script's own configuration both are discarded
and the merge yields no segment at all — not the one (resp. two) segments
the claim asserts. -/
theorem c6_scenario_counterexample :
    BuildSrs.parse_transcript BuildSrs.EXCLUDE_RANGES scenarioTranscript = [] ∧
    BuildSrs.merge_segments ⟨3, 3/2, 12⟩
      (BuildSrs.parse_transcript BuildSrs.EXCLUDE_RANGES scenarioTranscript) = [] ∧
    BuildSrs.merge_segments ⟨3, 1/2, 12⟩
      (BuildSrs.parse_transcript BuildSrs.EXCLUDE_RANGES scenarioTranscript) = [] := by
  refine ⟨?_, ?_, ?_⟩ <;> with_unfolding_all decide

set_option maxRecDepth 20000 in
/-- C6 (amended): with the excluded-time-ranges configuration not covering
the entries (here: empty), parsing the scenario transcript yields the two
raw entries `(10, 12, "こんにちは")` and `(13, 14, "はい")`; merging with
`min_segment_duration = 3.0` and `max_gap_to_merge = 1.5` yields exactly
one finalized segment `(10, 14, "こんにちは / はい")`; and merging the
same entries with `max_gap_to_merge = 0.5` emits exactly the two separate
segments.  (Each result list is pinned down componentwise by its times and
its texts.) -/
theorem c6_scenario_amended :
    ((BuildSrs.parse_transcript [] scenarioTranscript).map segTimes =
        [(10, 12), (13, 14)] ∧
      (BuildSrs.parse_transcript [] scenarioTranscript).map Seg.text =
        ["こんにちは".data, "はい".data]) ∧
    ((BuildSrs.merge_segments ⟨3, 3/2, 12⟩
        (BuildSrs.parse_transcript [] scenarioTranscript)).map segTimes =
        [(10, 14)] ∧
      (BuildSrs.merge_segments ⟨3, 3/2, 12⟩
        (BuildSrs.parse_transcript [] scenarioTranscript)).map Seg.text =
        ["こんにちは / はい".data]) ∧
    ((BuildSrs.merge_segments ⟨3, 1/2, 12⟩
        (BuildSrs.parse_transcript [] scenarioTranscript)).map segTimes =
        [(10, 12), (13, 14)] ∧
      (BuildSrs.merge_segments ⟨3, 1/2, 12⟩
        (BuildSrs.parse_transcript [] scenarioTranscript)).map Seg.text =
        ["こんにちは".data, "はい".data]) := by
  refine ⟨⟨?_, ?_⟩, ⟨?_, ?_⟩, ⟨?_, ?_⟩⟩ <;> with_unfolding_all decide

/-- Round-to-nearest with ties to even, the rounding applied by Python's
fixed-point float formatting (`f"{s:05.2f}"` rounds the value to two
decimals); modelled exactly over `ℚ`. -/
def roundHalfEven (x : ℚ) : ℤ :=
  if x - ⌊x⌋ < 1/2 then ⌊x⌋
  else if 1/2 < x - ⌊x⌋ then ⌊x⌋ + 1
  else if (⌊x⌋).emod 2 = 0 then ⌊x⌋ else ⌊x⌋ + 1

/-- Zero-padding to (at least) two digits, as in `f"{h:02d}"` for the
nonnegative field values produced by `seconds_to_ffmpeg_time`. -/
def pad2 (n : ℤ) : List Char :=
  let d := Nat.toDigits 10 n.toNat
  if d.length < 2 then '0' :: d else d

/-- The three field values rendered by `seconds_to_ffmpeg_time`
(build_srs.py lines 59-63, identical in build_evangelion.py and
build_charlottes_web.py): hours `int(s)//3600`, minutes
`(int(s)%3600)//60` (Python `//` and `%` are floored), and the seconds
value `s % 60` as rounded to two decimals by the `{s:05.2f}` format. -/
def seconds_to_ffmpeg_parts (q : ℚ) : ℤ × ℤ × ℚ :=
  ((pyInt q).fdiv 3600, ((pyInt q).fmod 3600).fdiv 60,
    ((roundHalfEven (pyMod q 60 * 100) : ℚ) / 100))

/-- `seconds_to_ffmpeg_time` (build_srs.py lines 59-63): the rendered
`HH:MM:SS.ff` character string `f"{h:02d}:{m:02d}:{s:05.2f}"` (the `05.2f`
fixed-point format prints the rounded seconds with a two-digit integer
part and exactly two fractional digits). -/
def seconds_to_ffmpeg_time (q : ℚ) : List Char :=
  let k := roundHalfEven (pyMod q 60 * 100)
  pad2 ((pyInt q).fdiv 3600) ++ [':'] ++ pad2 (((pyInt q).fmod 3600).fdiv 60) ++
    [':'] ++ pad2 (k.fdiv 100) ++ ['.'] ++ pad2 (k.fmod 100)

/-- C7 (counterexample): at `59.999` seconds the `{s:05.2f}` format rounds
`59.999` up to `60.00`, so the rendered timestamp is `"00:00:60.00"`:
its seconds field denotes 60, not a value strictly below 60. -/
theorem c7_ffmpeg_time_counterexample :
    seconds_to_ffmpeg_time (59999/1000) = "00:00:60.00".data ∧
    (seconds_to_ffmpeg_parts (59999/1000)).2.2 = 60 ∧
    ¬ (seconds_to_ffmpeg_parts (59999/1000)).2.2 < 60 := by
  refine ⟨?_, ?_, ?_⟩ <;> with_unfolding_all decide

/-- `pyInt` agrees with the floor on nonnegative arguments. -/
lemma pyInt_of_nonneg {q : ℚ} (h : 0 ≤ q) : pyInt q = ⌊q⌋ := by
  simp [pyInt, h]

/-- Flooring after dividing by 60 is integer division of the floor. -/
lemma floor_div_sixty (q : ℚ) : ⌊q / 60⌋ = ⌊q⌋ / 60 := by
  have h60 : (0:ℚ) < 60 := by norm_num
  refine (Int.floor_eq_iff.mpr ⟨?_, ?_⟩)
  · rw [le_div_iff₀ h60]
    have h1 : ((⌊q⌋ / 60 * 60 : ℤ) : ℚ) ≤ (⌊q⌋ : ℚ) := by
      exact_mod_cast Int.ediv_mul_le ⌊q⌋ (by norm_num)
    calc ((⌊q⌋ / 60 : ℤ) : ℚ) * 60 = ((⌊q⌋ / 60 * 60 : ℤ) : ℚ) := by push_cast; ring
    _ ≤ (⌊q⌋ : ℚ) := h1
    _ ≤ q := Int.floor_le q
  · rw [div_lt_iff₀ h60]
    have hlt : q < (⌊q⌋ : ℚ) + 1 := Int.lt_floor_add_one q
    have h2 : ⌊q⌋ + 1 ≤ (⌊q⌋ / 60 + 1) * 60 := by omega
    calc q < (⌊q⌋ : ℚ) + 1 := hlt
    _ = ((⌊q⌋ + 1 : ℤ) : ℚ) := by push_cast; ring
    _ ≤ (((⌊q⌋ / 60 + 1) * 60 : ℤ) : ℚ) := by exact_mod_cast h2
    _ = ((⌊q⌋ / 60 : ℤ) + 1) * 60 := by push_cast; ring

/-- Half-even rounding differs from its argument by at most `1/2`. -/
lemma roundHalfEven_err (x : ℚ) : |(roundHalfEven x : ℚ) - x| ≤ 1/2 := by
  have hle : (⌊x⌋ : ℚ) ≤ x := Int.floor_le x
  have hlt : x < (⌊x⌋ : ℚ) + 1 := Int.lt_floor_add_one x
  unfold roundHalfEven
  split_ifs with h1 h2 h3 <;>
    (rw [abs_le]; constructor <;> push_cast <;> linarith)

/-- Half-even rounding is monotone with respect to the floor bracket:
`⌊x⌋ ≤ roundHalfEven x ≤ ⌊x⌋ + 1`. -/
lemma roundHalfEven_bracket (x : ℚ) :
    ⌊x⌋ ≤ roundHalfEven x ∧ roundHalfEven x ≤ ⌊x⌋ + 1 := by
  unfold roundHalfEven
  split_ifs <;> omega

/-- C7 (amended): for every nonnegative time value, the fields rendered by
`seconds_to_ffmpeg_time` — as computed by `seconds_to_ffmpeg_parts` — form
a timestamp in which the hours field is present and nonnegative, the
minutes field denotes a value in `[0, 60)`, the seconds field denotes a
value in `[0, 60]` carrying exactly two fractional digits, and the three
fields together denote the given time up to the `1/200` error of rounding
to two decimals.  The seconds field can equal `60.00` exactly (when
`s mod 60` rounds up to 60, see the counterexample), which is the only
deviation from the claim. -/
theorem c7_ffmpeg_time_amended (q : ℚ) (hq : 0 ≤ q) :
    0 ≤ (seconds_to_ffmpeg_parts q).1 ∧
    0 ≤ (seconds_to_ffmpeg_parts q).2.1 ∧ (seconds_to_ffmpeg_parts q).2.1 < 60 ∧
    0 ≤ (seconds_to_ffmpeg_parts q).2.2 ∧ (seconds_to_ffmpeg_parts q).2.2 ≤ 60 ∧
    ((seconds_to_ffmpeg_parts q).2.2 * 100).den = 1 ∧
    |((seconds_to_ffmpeg_parts q).1 * 3600 + (seconds_to_ffmpeg_parts q).2.1 * 60 +
        (seconds_to_ffmpeg_parts q).2.2 : ℚ) - q| ≤ 1/200 := by
  have hn : (0:ℤ) ≤ ⌊q⌋ := Int.floor_nonneg.mpr hq
  have hpy : pyInt q = ⌊q⌋ := pyInt_of_nonneg hq
  have h60 : (0:ℚ) < 60 := by norm_num
  -- the seconds remainder and its two-decimal rounding
  have hr0 : 0 ≤ pyMod q 60 := by
    have := Int.sub_floor_div_mul_nonneg q h60
    simpa [pyMod, mul_comm] using this
  have hr1 : pyMod q 60 < 60 := by
    have := Int.sub_floor_div_mul_lt q h60
    simpa [pyMod, mul_comm] using this
  set r := pyMod q 60 with hrdef
  set k := roundHalfEven (r * 100) with hkdef
  have hk0 : 0 ≤ k := by
    have h := (roundHalfEven_bracket (r * 100)).1
    have : (0:ℤ) ≤ ⌊r * 100⌋ := Int.floor_nonneg.mpr (by positivity)
    omega
  have hk6000 : k ≤ 6000 := by
    have h := (roundHalfEven_bracket (r * 100)).2
    have : ⌊r * 100⌋ < 6000 := Int.floor_lt.mpr (by push_cast; linarith)
    omega
  -- rewrite fdiv/fmod as euclidean division on the nonnegative floor
  have hfd : (pyInt q).fdiv 3600 = ⌊q⌋ / 3600 := by
    rw [hpy]; exact Int.fdiv_eq_ediv _ (by norm_num)
  have hfm : (pyInt q).fmod 3600 = ⌊q⌋ % 3600 := by
    rw [hpy]; exact Int.fmod_eq_emod _ (by norm_num)
  have hfd2 : ((pyInt q).fmod 3600).fdiv 60 = (⌊q⌋ % 3600) / 60 := by
    rw [hfm]; exact Int.fdiv_eq_ediv _ (by norm_num)
  refine ⟨?_, ?_, ?_, ?_, ?_, ?_, ?_⟩
  · simp only [seconds_to_ffmpeg_parts, hfd]
    exact Int.ediv_nonneg hn (by norm_num)
  · simp only [seconds_to_ffmpeg_parts, hfd2]
    exact Int.ediv_nonneg (Int.emod_nonneg _ (by norm_num)) (by norm_num)
  · simp only [seconds_to_ffmpeg_parts, hfd2]
    have h1 : ⌊q⌋ % 3600 < 3600 := Int.emod_lt_of_pos _ (by norm_num)
    have h2 : 0 ≤ ⌊q⌋ % 3600 := Int.emod_nonneg _ (by norm_num)
    omega
  · simp only [seconds_to_ffmpeg_parts, ← hrdef, ← hkdef]
    exact div_nonneg (by exact_mod_cast hk0) (by norm_num)
  · simp only [seconds_to_ffmpeg_parts, ← hrdef, ← hkdef]
    rw [div_le_iff₀ (by norm_num : (0:ℚ) < 100)]
    have : (k:ℚ) ≤ 6000 := by exact_mod_cast hk6000
    linarith
  · simp only [seconds_to_ffmpeg_parts, ← hrdef, ← hkdef]
    have : ((k:ℚ) / 100) * 100 = (k:ℚ) := by field_simp
    rw [this]
    exact Rat.den_intCast k
  · -- the rendered fields sum to q up to the rounding of the seconds field
    simp only [seconds_to_ffmpeg_parts, hfd, hfd2, ← hrdef, ← hkdef]
    have hsum : (⌊q⌋ / 3600 : ℤ) * 3600 + ((⌊q⌋ % 3600) / 60) * 60 = (⌊q⌋ / 60) * 60 := by
      omega
    have hfloor : ⌊q / 60⌋ = ⌊q⌋ / 60 := floor_div_sixty q
    have hqsplit : ((⌊q⌋ / 3600 : ℤ) : ℚ) * 3600 + ((⌊q⌋ % 3600) / 60 : ℤ) * 60 =
        q - r := by
      have : ((⌊q⌋ / 60 * 60 : ℤ) : ℚ) = q - r := by
        rw [hrdef]
        simp only [pyMod, hfloor]
        push_cast
        ring
      calc ((⌊q⌋ / 3600 : ℤ) : ℚ) * 3600 + ((⌊q⌋ % 3600) / 60 : ℤ) * 60 =
          ((⌊q⌋ / 3600 * 3600 + (⌊q⌋ % 3600) / 60 * 60 : ℤ) : ℚ) := by push_cast; ring
      _ = ((⌊q⌋ / 60 * 60 : ℤ) : ℚ) := by exact_mod_cast hsum
      _ = q - r := this
    have herr : |(k:ℚ) / 100 - r| ≤ 1/200 := by
      have h := roundHalfEven_err (r * 100)
      rw [← hkdef] at h
      have : (k:ℚ) / 100 - r = ((k:ℚ) - r * 100) / 100 := by ring
      rw [this, abs_div]
      rw [abs_of_pos (by norm_num : (0:ℚ) < 100)]
      linarith [h, abs_nonneg ((k:ℚ) - r * 100)]
    have hx : ((⌊q⌋ / 3600 : ℤ) : ℚ) * 3600 + (((⌊q⌋ % 3600) / 60 : ℤ) : ℚ) * 60 +
        (k:ℚ)/100 - q = (k:ℚ)/100 - r := by linear_combination hqsplit
    calc |((⌊q⌋ / 3600 : ℤ) : ℚ) * 3600 + (((⌊q⌋ % 3600) / 60 : ℤ) : ℚ) * 60 + (k:ℚ)/100 - q|
        = |(k:ℚ)/100 - r| := by rw [hx]
    _ ≤ 1/200 := herr

/-- C7 witness: the amended timestamp theorem applied at `125.37` seconds
(whose fields are `00:02:05.37`). -/
theorem c7_ffmpeg_time_witness :
    0 ≤ (12537/100 : ℚ) ∧
    (0 ≤ (seconds_to_ffmpeg_parts (12537/100)).1 ∧
      0 ≤ (seconds_to_ffmpeg_parts (12537/100)).2.1 ∧
      (seconds_to_ffmpeg_parts (12537/100)).2.1 < 60 ∧
      0 ≤ (seconds_to_ffmpeg_parts (12537/100)).2.2 ∧
      (seconds_to_ffmpeg_parts (12537/100)).2.2 ≤ 60 ∧
      ((seconds_to_ffmpeg_parts (12537/100)).2.2 * 100).den = 1 ∧
      |((seconds_to_ffmpeg_parts (12537/100)).1 * 3600 +
          (seconds_to_ffmpeg_parts (12537/100)).2.1 * 60 +
          (seconds_to_ffmpeg_parts (12537/100)).2.2 : ℚ) - 12537/100| ≤ 1/200) :=
  ⟨by norm_num, c7_ffmpeg_time_amended (12537/100) (by norm_num)⟩

/-- A vocabulary item of the annotation record
(`{word, reading, meaning}`). -/
structure VocabEntry where
  word : List Char
  reading : List Char
  meaning : List Char
deriving DecidableEq, Repr

/-- The annotation record produced per segment:
`{translation, vocabulary, grammar}` (grammar may be JSON `null`). -/
structure Breakdown where
  translation : List Char
  vocabulary : List VocabEntry
  grammar : Option (List Char)
deriving DecidableEq, Repr

/-- The markdown fence stripping of `generate_breakdown`
(generate_nier_translations.py lines 49-53, identical in
generate_breakdowns.py lines 44-48): if ` ```json ` occurs, take what lies
between it and the next ` ``` `; otherwise if ` ``` ` occurs, take what
lies between the first pair of fences; otherwise keep the content. -/
def stripFences (content : List Char) : List Char :=
  if "```json".data <:+: content then
    (pySplit "```".data ((pySplit "```json".data content).getD 1 [])).getD 0 []
  else if "```".data <:+: content then
    (pySplit "```".data ((pySplit "```".data content).getD 1 [])).getD 0 []
  else content

/-- `generate_breakdown` (generate_nier_translations.py lines 34-62,
identical in generate_breakdowns.py lines 29-57).  The external LLM call
is modelled by its outcome `response` (`none` = the call raised an
exception), and `json.loads` by the abstract parser `parse` (`none` = the
content is not parseable as JSON; a parsed record is modelled directly as
a `Breakdown`).  The `try/except` of the source catches both failure
modes and returns the empty-but-well-formed record. -/
def generate_breakdown (parse : List Char → Option Breakdown)
    (response : Option (List Char)) : Breakdown :=
  match response with
  | none => ⟨[], [], none⟩
  | some content =>
    match parse (pyStrip (stripFences content)) with
    | some b => b
    | none => ⟨[], [], none⟩

/-- A segment record of the persisted manifest (all fields are the strings
read back from `segments.json`). -/
structure ManifestSeg where
  start : List Char
  endField : List Char
  text : List Char
  audio_file : List Char
deriving DecidableEq, Repr

/-- An annotated output record (`result` built in
generate_nier_translations.py lines 115-124). -/
structure AnnotatedSeg where
  start : List Char
  endField : List Char
  text : List Char
  audio_file : List Char
  translation : List Char
  vocabulary : List VocabEntry
  grammar : Option (List Char)
deriving DecidableEq, Repr

/-- The per-segment annotation loop of generate_nier_translations.py
(lines 104-124, without the resume cache, which only skips the external
call): each segment yields exactly one result record whose annotation
fields come from `generate_breakdown`; `oracle` gives the LLM outcome for
each text. -/
def annotate_loop (parse : List Char → Option Breakdown)
    (oracle : List Char → Option (List Char)) (segments : List ManifestSeg) :
    List AnnotatedSeg :=
  segments.map fun s =>
    let b := generate_breakdown parse (oracle s.text)
    ⟨s.start, s.endField, s.text, s.audio_file, b.translation, b.vocabulary,
      b.grammar⟩

/-- C8: if the external LLM call raises (outcome `none`) or its content
fails to parse as JSON after fence stripping, `generate_breakdown`
returns the empty-but-well-formed record
`{translation: "", vocabulary: [], grammar: null}` instead of propagating
the error; consequently the annotation loop produces exactly one
well-formed record per input segment, whatever the per-segment
outcomes. -/
theorem c8_breakdown_error_handling :
    (∀ (parse : List Char → Option Breakdown) (response : Option (List Char)),
      (response = none ∨
        ∃ c, response = some c ∧ parse (pyStrip (stripFences c)) = none) →
      generate_breakdown parse response = ⟨[], [], none⟩) ∧
    (∀ (parse : List Char → Option Breakdown)
        (oracle : List Char → Option (List Char))
        (segments : List ManifestSeg),
      (annotate_loop parse oracle segments).length = segments.length) := by
  constructor
  · intro parse response h
    rcases h with h | ⟨c, hc, hp⟩
    · rw [h]; rfl
    · rw [hc]
      simp [generate_breakdown, hp]
  · intro parse oracle segments
    simp [annotate_loop]

/-- C8 witness: the error-handling theorem applied to a failing parse on
concrete content (a reply that is not JSON) and to a concrete two-segment
loop. -/
theorem c8_breakdown_error_handling_witness :
    generate_breakdown (fun _ => none) (some "I cannot parse this".data) =
      ⟨[], [], none⟩ ∧
    (annotate_loop (fun _ => none) (fun _ => none)
      [⟨"00:10".data, "00:14".data, "こんにちは".data, "clip_000.mp3".data⟩,
       ⟨"00:20".data, "00:24".data, "はい".data, "clip_001.mp3".data⟩]).length = 2 :=
  ⟨c8_breakdown_error_handling.1 (fun _ => none) (some "I cannot parse this".data)
      (Or.inr ⟨_, rfl, rfl⟩),
   c8_breakdown_error_handling.2 (fun _ => none) (fun _ => none) _⟩

/-- The audio endpoint detection constants of build_evangelion.py and
build_charlottes_web.py (same algorithm, different values). -/
structure RefineConfig where
  min_extension : ℚ
  search_window : ℚ
  silence_threshold : ℚ
  min_silence_duration : ℚ
  fallback_buffer : ℚ
  end_buffer : ℚ
  start_buffer : ℚ
  start_search_window : ℚ
deriving DecidableEq, Repr

/-- build_evangelion.py lines 28-35. -/
def evangelionConfig : RefineConfig := ⟨7/10, 2, 3/20, 3/20, 9/10, 7/20, 1/10, 1⟩

/-- build_charlottes_web.py lines 25-32. -/
def charlottesWebConfig : RefineConfig := ⟨1/2, 2, 1/10, 3/20, 7/10, 1/5, 1/10, 1⟩

/-- Number of short-time frames covering `len` samples advanced by `hop`.
Modelled from the spec: librosa.feature.rms in the source is an external
library; §4.3 specifies "an ordered sequence of per-frame normalized
energy values, each covering a fixed short time window (frame length)
advanced by a fixed hop". -/
def numFrames (len hop : ℕ) : ℕ := if len = 0 then 0 else (len - 1) / hop + 1

/-- Mean of squared samples of the frame of `fl` samples starting at
sample offset `off` (zero-padded past the end of the signal): the square
of that frame's RMS, the exact representation used throughout (see the
header note). -/
def frameMeanSq (samples : List ℚ) (fl off : ℕ) : ℚ :=
  (((samples.drop off).take fl).map fun x => x * x).sum / fl

/-- Modelled from the spec: the short-time energy profile of §4.3 (frame
length `int(0.025*sr)`, hop `int(0.010*sr)` samples, RMS energy per
frame), in the squared representation.  The source computes it with
`librosa.feature.rms(y=…, frame_length=…, hop_length=…)[0]`, an external
library call. -/
def rms_profile (samples : List ℚ) (fl hop : ℕ) : List ℚ :=
  (List.range (numFrames samples.length hop)).map fun i =>
    frameMeanSq samples fl (i * hop)

/-- The normalization choice of `find_silence_after` / `find_silence_before`
(build_charlottes_web.py lines 225-230, build_evangelion.py lines
201-206): the provided global maximum if positive, else the window's own
maximum if positive, else no energy (fallback).  All values are squared
RMS, so `global_rms_max` here carries the square of the source's value and
every later comparison squares the threshold side. -/
def normMax (global_rms_max : Option ℚ) (prof : List ℚ) : Option ℚ :=
  match global_rms_max with
  | some g =>
    if 0 < g then some g
    else if 0 < maxQ prof then some (maxQ prof) else none
  | none => if 0 < maxQ prof then some (maxQ prof) else none

/-- `np.all(rms_norm[i:i+msf] < threshold)` in the squared representation:
frames `i, …, i+msf-1` of the profile all lie strictly below the
threshold (`rms/√M < θ ↔ meanSq < θ²·M`). -/
def quietRun (prof : List ℚ) (θ M : ℚ) (msf i : ℕ) : Bool :=
  (List.range msf).all fun j => decide (prof.getD (i + j) 0 < θ ^ 2 * M)

/-- `hop_length = int(0.010 * sr)`. -/
def hopOf (sr : ℕ) : ℕ := (pyInt ((1/100 : ℚ) * sr)).toNat

/-- `frame_length = int(0.025 * sr)`. -/
def flOf (sr : ℕ) : ℕ := (pyInt ((1/40 : ℚ) * sr)).toNat

/-- `min_silence_frames = int(MIN_SILENCE_DURATION * sr / hop_length)`. -/
def msfOf (cfg : RefineConfig) (sr : ℕ) : ℕ :=
  (pyInt (cfg.min_silence_duration * sr / (hopOf sr : ℚ))).toNat

/-- `int(MIN_SILENCE_DURATION * sr)`, the minimal window length in
samples. -/
def minLenOf (cfg : RefineConfig) (sr : ℕ) : ℕ :=
  (pyInt (cfg.min_silence_duration * sr)).toNat

/-- The first sample of the forward search window (`int(start_time*sr)`;
in build_evangelion.py and build_charlottes_web.py the search starts at
the nominal end itself). -/
def fsaStartSample (sr : ℕ) (start_time : ℚ) : ℤ := pyInt (start_time * sr)

/-- The clipped last sample (exclusive) of the forward search window:
`start+window`, capped at `next_start - 0.05` when a next segment exists,
and at the audio length. -/
def fsaEndSample (audio : List ℚ) (sr : ℕ) (start_time max_search_time : ℚ)
    (next_start_time : Option ℚ) : ℤ :=
  min
    (match next_start_time with
      | some ns => min (pyInt ((start_time + max_search_time) * sr))
          (pyInt ((ns - 1/20) * sr))
      | none => pyInt ((start_time + max_search_time) * sr))
    (audio.length : ℤ)

/-- The fallback refined end: `next_start - 0.05` when a next segment
exists, else `start_time + FALLBACK_BUFFER`. -/
def fsaFallback (cfg : RefineConfig) (start_time : ℚ) (next_start_time : Option ℚ) : ℚ :=
  match next_start_time with
  | some ns => ns - 1/20
  | none => start_time + cfg.fallback_buffer

/-- The forward search window `audio[start_sample:end_sample]`. -/
def fsaWindow (audio : List ℚ) (sr : ℕ) (start_time max_search_time : ℚ)
    (next_start_time : Option ℚ) : List ℚ :=
  pySlice audio (fsaStartSample sr start_time)
    (fsaEndSample audio sr start_time max_search_time next_start_time)

/-- The energy profile of the forward search window. -/
def fsaProfile (audio : List ℚ) (sr : ℕ) (start_time max_search_time : ℚ)
    (next_start_time : Option ℚ) : List ℚ :=
  rms_profile (fsaWindow audio sr start_time max_search_time next_start_time)
    (flOf sr) (hopOf sr)

/-- `find_silence_after` (build_charlottes_web.py lines 188-243,
build_evangelion.py lines 172-217 — identical code, different module
constants, here the fields of `cfg`): scan the clipped window after the
nominal end for the first run of `min_silence_frames` frames below the
threshold; on success return the run start plus `END_BUFFER`, clamped to
at least `start_time + MIN_EXTENSION`; otherwise fall back. -/
def find_silence_after (cfg : RefineConfig) (audio : List ℚ) (sr : ℕ)
    (start_time max_search_time : ℚ) (next_start_time : Option ℚ)
    (global_rms_max : Option ℚ) : ℚ :=
  let start_sample := fsaStartSample sr start_time
  let end_sample := fsaEndSample audio sr start_time max_search_time next_start_time
  let fallback_end := fsaFallback cfg start_time next_start_time
  if end_sample ≤ start_sample then fallback_end
  else
    let search_audio := fsaWindow audio sr start_time max_search_time next_start_time
    if search_audio.length < minLenOf cfg sr then fallback_end
    else
      let prof := fsaProfile audio sr start_time max_search_time next_start_time
      match normMax global_rms_max prof with
      | none => fallback_end
      | some M =>
        let msf := msfOf cfg sr
        match (List.range (prof.length - msf)).find?
            (quietRun prof cfg.silence_threshold M msf) with
        | some i =>
          max (start_time + ((i * hopOf sr : ℕ) : ℚ) / (sr : ℚ) + cfg.end_buffer)
            (start_time + cfg.min_extension)
        | none => fallback_end

/-- `find_silence_before` (build_charlottes_web.py lines 245-297,
build_evangelion.py lines 219-263): scan the window before the nominal
start backward for the last silence-to-speech transition (a loud frame
preceded by `min_silence_frames` quiet frames); on success return the
transition minus `START_BUFFER`, on failure `start_time - 0.15`, both
clamped to at least the previous segment's end plus the safety margin;
degenerate windows return the nominal start unchanged. -/
def find_silence_before (cfg : RefineConfig) (audio : List ℚ) (sr : ℕ)
    (start_time : ℚ) (prev_end_time : Option ℚ)
    (global_rms_max : Option ℚ) : ℚ :=
  let earliest_time : ℚ :=
    match prev_end_time with
    | some p => p + 1/20
    | none => 0
  let search_start := max earliest_time (start_time - cfg.start_search_window)
  let start_sample := pyInt (search_start * sr)
  let end_sample := pyInt (start_time * sr)
  if end_sample ≤ start_sample ∨ start_sample < 0 then start_time
  else
    let search_audio := pySlice audio start_sample end_sample
    if search_audio.length < minLenOf cfg sr then start_time
    else
      let prof := rms_profile search_audio (flOf sr) (hopOf sr)
      match normMax global_rms_max prof with
      | none => start_time
      | some M =>
        let msf := msfOf cfg sr
        match ((List.range prof.length).drop msf).reverse.find? (fun i =>
            decide (cfg.silence_threshold ^ 2 * M ≤ prof.getD i 0) &&
              quietRun prof cfg.silence_threshold M msf (i - msf)) with
        | some i =>
          max earliest_time
            (search_start + ((i * hopOf sr : ℕ) : ℚ) / (sr : ℚ) - cfg.start_buffer)
        | none => max earliest_time (start_time - 3/20)

/-- The refinement loop of `adjust_endpoints_with_audio`
(build_charlottes_web.py lines 311-326, build_evangelion.py lines
274-287).  The source mutates the segment list in place, so when segment
`i` is processed, `segments[i-1]['end_sec']` already holds the *refined*
end of the previous segment — modelled by threading `prev_end` — while
`segments[i+1]['start_sec']` is still the nominal start of the next
segment. -/
def adjust_loop (cfg : RefineConfig) (audio : List ℚ) (sr : ℕ) (G : ℚ) :
    Option ℚ → List Seg → List Seg
  | _, [] => []
  | prev_end, seg :: rest =>
    let new_start := find_silence_before cfg audio sr seg.start_sec prev_end (some G)
    let next_start := rest.head?.map Seg.start_sec
    let new_end := find_silence_after cfg audio sr seg.end_sec cfg.search_window
      next_start (some G)
    ⟨new_start, new_end, seg.text⟩ ::
      adjust_loop cfg audio sr G (some new_end) rest

/-- `adjust_endpoints_with_audio` (build_charlottes_web.py lines 299-328,
build_evangelion.py lines 265-289): compute the global maximum energy of
the whole audio once, then refine every segment's start and end in
order. -/
def adjust_endpoints_with_audio (cfg : RefineConfig) (segments : List Seg)
    (audio : List ℚ) (sr : ℕ) : List Seg :=
  let G := maxQ (rms_profile audio (flOf sr) (hopOf sr))
  adjust_loop cfg audio sr G none segments

/-- Modelled from the spec (§4.4/§5, the reference point of claim C3): the
independent per-segment refinement that uses only *nominal* neighbor
boundaries — the previous segment's nominal end and the next segment's
nominal start — processing segments in original order without re-reading
neighbors' refined values. -/
def adjust_nominal_loop (cfg : RefineConfig) (audio : List ℚ) (sr : ℕ) (G : ℚ) :
    Option ℚ → List Seg → List Seg
  | _, [] => []
  | prev_nominal_end, seg :: rest =>
    let new_start := find_silence_before cfg audio sr seg.start_sec
      prev_nominal_end (some G)
    let next_start := rest.head?.map Seg.start_sec
    let new_end := find_silence_after cfg audio sr seg.end_sec cfg.search_window
      next_start (some G)
    ⟨new_start, new_end, seg.text⟩ ::
      adjust_nominal_loop cfg audio sr G (some seg.end_sec) rest

/-- Modelled from the spec: `adjust_endpoints_with_audio` as §4.4 describes
it, with every neighbor bound nominal. -/
def adjust_endpoints_nominal (cfg : RefineConfig) (segments : List Seg)
    (audio : List ℚ) (sr : ℕ) : List Seg :=
  let G := maxQ (rms_profile audio (flOf sr) (hopOf sr))
  adjust_nominal_loop cfg audio sr G none segments

section PyIntLemmas

/-- Truncation is monotone. -/
lemma pyInt_mono {a b : ℚ} (h : a ≤ b) : pyInt a ≤ pyInt b := by
  unfold pyInt
  split_ifs with ha hb hb
  · exact Int.floor_mono h
  · exact absurd (le_trans ha h) hb
  · have h1 : (0:ℤ) ≤ ⌊b⌋ := Int.floor_nonneg.mpr hb
    have h2 : (0:ℤ) ≤ ⌊-a⌋ := Int.floor_nonneg.mpr (by linarith [lt_of_not_le ha])
    omega
  · have : ⌊-b⌋ ≤ ⌊-a⌋ := Int.floor_mono (by linarith)
    omega

/-- Truncation of a nonnegative value is nonnegative. -/
lemma pyInt_nonneg {x : ℚ} (h : 0 ≤ x) : 0 ≤ pyInt x := by
  unfold pyInt
  rw [if_pos h]
  exact Int.floor_nonneg.mpr h

/-- A truncation that is at least 1 bounds its argument from below. -/
lemma pyInt_cast_le {x : ℚ} (h : 1 ≤ pyInt x) : (pyInt x : ℚ) ≤ x := by
  unfold pyInt at *
  split_ifs at h ⊢ with hx
  · exact Int.floor_le x
  · exfalso
    have h0 : (0:ℤ) ≤ ⌊-x⌋ := Int.floor_nonneg.mpr (by linarith [lt_of_not_le hx])
    omega

/-- Truncation exceeds the argument minus one. -/
lemma sub_one_lt_pyInt (x : ℚ) : x - 1 < (pyInt x : ℚ) := by
  unfold pyInt
  split_ifs with hx
  · exact Int.sub_one_lt_floor x
  · have h1 : (⌊-x⌋ : ℚ) ≤ -x := Int.floor_le (-x)
    push_cast
    linarith

/-- A slice is never longer than the gap between its index bounds. -/
lemma pySlice_length_le (l : List ℚ) (a b : ℤ) :
    (pySlice l a b).length ≤ b.toNat - a.toNat := by
  simp only [pySlice, List.length_drop, List.length_take]
  omega

/-- A frame index below `numFrames` points at most `len - 1` samples in. -/
lemma numFrames_off_le {len hop i : ℕ} (h : i < numFrames len hop) :
    1 ≤ len ∧ i * hop ≤ len - 1 := by
  unfold numFrames at h
  split_ifs at h with hlen
  · omega
  · refine ⟨by omega, ?_⟩
    rcases Nat.eq_zero_or_pos hop with h0 | h0
    · simp [h0]
    · have hi : i ≤ (len - 1) / hop := by omega
      calc i * hop ≤ (len - 1) / hop * hop := Nat.mul_le_mul_right hop hi
      _ ≤ len - 1 := Nat.div_mul_le_self _ _

end PyIntLemmas

/-- C9: `find_silence_before` never moves a segment's start later — on
every path (silence-to-speech transition found, no transition found, or
empty/too-short search window) its return value is at most the nominal
start it was given. -/
theorem c9_find_silence_before_le (cfg : RefineConfig) (audio : List ℚ)
    (sr : ℕ) (start_time : ℚ) (prev_end_time global_rms_max : Option ℚ)
    (hsr : 1 ≤ sr) (hbuf : 0 ≤ cfg.start_buffer) :
    find_silence_before cfg audio sr start_time prev_end_time global_rms_max ≤
      start_time := by
  unfold find_silence_before
  dsimp only
  set earliest := (match prev_end_time with | some p => p + 1/20 | none => (0:ℚ))
    with hearliest
  set ss := max earliest (start_time - cfg.start_search_window) with hss
  set a := pyInt (ss * sr) with ha
  set b := pyInt (start_time * sr) with hb
  split_ifs with hdeg hshort
  · exact le_refl _
  · exact le_refl _
  push_neg at hdeg
  obtain ⟨hab, ha0⟩ := hdeg
  have hsrQ : (0:ℚ) < (sr:ℚ) := by exact_mod_cast Nat.lt_of_lt_of_le Nat.zero_lt_one hsr
  have hss_lt : ss < start_time := by
    by_contra hcon
    push_neg at hcon
    have : b ≤ a := pyInt_mono (mul_le_mul_of_nonneg_right hcon (le_of_lt hsrQ))
    omega
  have hearliest_lt : earliest < start_time :=
    lt_of_le_of_lt (hss ▸ le_max_left _ _) hss_lt
  rcases hnm : normMax global_rms_max
      (rms_profile (pySlice audio a b) (flOf sr) (hopOf sr)) with _ | M
  · simp only [hnm]
    exact le_refl _
  simp only [hnm]
  rcases hfind : ((List.range (rms_profile (pySlice audio a b) (flOf sr)
      (hopOf sr)).length).drop (msfOf cfg sr)).reverse.find? (fun i =>
        decide (cfg.silence_threshold ^ 2 * M ≤
            (rms_profile (pySlice audio a b) (flOf sr) (hopOf sr)).getD i 0) &&
          quietRun (rms_profile (pySlice audio a b) (flOf sr) (hopOf sr))
            cfg.silence_threshold M (msfOf cfg sr) (i - msfOf cfg sr)) with _ | i
  · simp only [hfind]
    exact max_le (le_of_lt hearliest_lt) (by linarith)
  simp only [hfind]
  refine max_le (le_of_lt hearliest_lt) ?_
  -- the found frame offset stays inside the window
  have hi : i < (rms_profile (pySlice audio a b) (flOf sr) (hopOf sr)).length := by
    have hmem := List.mem_of_find?_eq_some hfind
    rw [List.mem_reverse] at hmem
    have := List.mem_of_mem_drop hmem
    exact List.mem_range.mp this
  rw [rms_profile, List.length_map, List.length_range] at hi
  obtain ⟨hlen1, hoff⟩ := numFrames_off_le hi
  have hlenle : (pySlice audio a b).length ≤ b.toNat - a.toNat :=
    pySlice_length_le audio a b
  have hoffZ : ((i * hopOf sr : ℕ) : ℤ) ≤ b - a - 1 := by omega
  have hb1 : 1 ≤ b := by omega
  have hbQ : (b : ℚ) ≤ start_time * sr := hb ▸ pyInt_cast_le (hb ▸ hb1)
  have haQ : ss * sr - 1 < (a : ℚ) := ha ▸ sub_one_lt_pyInt _
  have hexp : (start_time - ss) * sr = start_time * sr - ss * sr := by ring
  have hoffQ : ((i * hopOf sr : ℕ) : ℚ) ≤ (start_time - ss) * sr := by
    have h1 : ((i * hopOf sr : ℕ) : ℚ) ≤ (b : ℚ) - a - 1 := by exact_mod_cast hoffZ
    rw [hexp]
    linarith
  have hstep : ((i * hopOf sr : ℕ) : ℚ) / (sr : ℚ) ≤ start_time - ss := by
    rw [div_le_iff₀ hsrQ]
    exact hoffQ
  linarith

/-- C9 witness: the start-search monotonicity theorem applied at a
concrete degenerate window. -/
theorem c9_find_silence_before_le_witness :
    1 ≤ 100 ∧ 0 ≤ charlottesWebConfig.start_buffer ∧
    find_silence_before charlottesWebConfig [] 100 5 none none ≤ 5 :=
  ⟨by decide, by with_unfolding_all decide,
   c9_find_silence_before_le charlottesWebConfig [] 100 5 none none
     (by decide) (by with_unfolding_all decide)⟩

/-- C10: when a next segment exists, every return path of
`find_silence_after` respects the lower bound
`min (nominal_end + min_extension) (next_segment_start - 0.05)` — and
this is the only guaranteed lower bound: at a concrete input with
`next_segment_start - 0.05 < nominal_end` (next start 9, nominal end 10)
the function returns `8.95`, strictly earlier than the nominal end, i.e.
refinement can shrink a segment. -/
theorem c10_find_silence_after_lower_bound :
    (∀ (cfg : RefineConfig) (audio : List ℚ) (sr : ℕ) (t w ns : ℚ)
        (g : Option ℚ),
      min (t + cfg.min_extension) (ns - 1/20) ≤
        find_silence_after cfg audio sr t w (some ns) g) ∧
    (find_silence_after charlottesWebConfig [] 100 10 2 (some 9) none = 179/20 ∧
      find_silence_after charlottesWebConfig [] 100 10 2 (some 9) none < 10) := by
  constructor
  · intro cfg audio sr t w ns g
    unfold find_silence_after
    dsimp only
    have hfb : fsaFallback cfg t (some ns) = ns - 1/20 := rfl
    split_ifs with h1 h2
    · rw [hfb]; exact min_le_right _ _
    · rw [hfb]; exact min_le_right _ _
    rcases hnm : normMax g (fsaProfile audio sr t w (some ns)) with _ | M
    · simp only [hnm]; rw [hfb]; exact min_le_right _ _
    simp only [hnm]
    rcases hfind : (List.range ((fsaProfile audio sr t w (some ns)).length -
        msfOf cfg sr)).find? (quietRun (fsaProfile audio sr t w (some ns))
          cfg.silence_threshold M (msfOf cfg sr)) with _ | i
    · simp only [hfind]; rw [hfb]; exact min_le_right _ _
    · simp only [hfind]
      exact le_trans (min_le_left _ _) (le_max_right _ _)
  · constructor
    · with_unfolding_all decide
    · with_unfolding_all decide

section AdjustLoopLemmas

variable (cfg : RefineConfig) (audio : List ℚ) (sr : ℕ) (G : ℚ)

/-- The refinement loop preserves the number of segments. -/
lemma adjust_loop_length :
    ∀ (segs : List Seg) (p : Option ℚ),
      (adjust_loop cfg audio sr G p segs).length = segs.length := by
  intro segs
  induction segs with
  | nil => intro p; rfl
  | cons seg rest ih => intro p; simp [adjust_loop, ih]

/-- Every refined end is a function of that segment's own nominal end and
the next segment's nominal start only (independent of the in-place state
`p`): the closed form of the loop's end values. -/
lemma adjust_loop_get?_end :
    ∀ (segs : List Seg) (p : Option ℚ) (i : ℕ),
      ((adjust_loop cfg audio sr G p segs)[i]?).map Seg.end_sec =
        (segs[i]?).map fun s =>
          find_silence_after cfg audio sr s.end_sec cfg.search_window
            ((segs[i+1]?).map Seg.start_sec) (some G) := by
  intro segs
  induction segs with
  | nil => intro p i; simp [adjust_loop]
  | cons seg rest ih =>
    intro p i
    cases i with
    | zero =>
      simp [adjust_loop, List.head?_eq_getElem?]
    | succ j =>
      simp only [adjust_loop, List.getElem?_cons_succ]
      exact ih _ j

/-- The nominal-neighbor variant has the same closed form for ends. -/
lemma adjust_nominal_loop_get?_end :
    ∀ (segs : List Seg) (p : Option ℚ) (i : ℕ),
      ((adjust_nominal_loop cfg audio sr G p segs)[i]?).map Seg.end_sec =
        (segs[i]?).map fun s =>
          find_silence_after cfg audio sr s.end_sec cfg.search_window
            ((segs[i+1]?).map Seg.start_sec) (some G) := by
  intro segs
  induction segs with
  | nil => intro p i; simp [adjust_nominal_loop]
  | cons seg rest ih =>
    intro p i
    cases i with
    | zero =>
      simp [adjust_nominal_loop, List.head?_eq_getElem?]
    | succ j =>
      simp only [adjust_nominal_loop, List.getElem?_cons_succ]
      exact ih _ j

/-- Every refined start after the first is the backward search applied to
that segment's nominal start with the *previous refined end* (the loop
mutates in place) as the neighbor bound. -/
lemma adjust_loop_get?_start_succ :
    ∀ (segs : List Seg) (p : Option ℚ) (i : ℕ),
      ((adjust_loop cfg audio sr G p segs)[i + 1]?).map Seg.start_sec =
        (segs[i + 1]?).map fun s =>
          find_silence_before cfg audio sr s.start_sec
            (((adjust_loop cfg audio sr G p segs)[i]?).map Seg.end_sec)
            (some G) := by
  intro segs
  induction segs with
  | nil => intro p i; simp [adjust_loop]
  | cons seg rest ih =>
    intro p i
    cases i with
    | zero =>
      cases rest with
      | nil => simp [adjust_loop]
      | cons r rr => simp [adjust_loop]
    | succ j =>
      simp only [adjust_loop, List.getElem?_cons_succ]
      exact ih _ j

end AdjustLoopLemmas

/-- C3 (amended): the sequential in-place refinement and the independent
per-segment refinement with nominal neighbor bounds agree on every
refined *end* (ends depend only on the segment's own nominal end and the
successor's nominal start, which the in-place loop has not yet
modified).  They do *not* agree on starts — the in-place loop passes the
predecessor's already-refined end, not its nominal end, to the backward
search (see the counterexample). -/
theorem c3_sequential_matches_nominal_on_ends (cfg : RefineConfig)
    (segments : List Seg) (audio : List ℚ) (sr : ℕ) :
    (adjust_endpoints_with_audio cfg segments audio sr).map Seg.end_sec =
      (adjust_endpoints_nominal cfg segments audio sr).map Seg.end_sec := by
  apply List.ext_getElem?
  intro i
  simp only [List.getElem?_map]
  rw [adjust_endpoints_with_audio, adjust_endpoints_nominal,
    adjust_loop_get?_end, adjust_nominal_loop_get?_end]

set_option maxRecDepth 100000 in
/-- C3 (counterexample): a concrete audio and segment list on which the
sequential in-place loop (`adjust_endpoints_with_audio`, the source
behavior) and the independent nominal-neighbor refinement
(`adjust_endpoints_nominal`, the claimed reference behavior) disagree:
segment 1's refined start is `0.41` sequentially (the predecessor's
refined end `0.7` blocks the backward search) but `0.26` independently.
Hence the claim that the sequential loop uses the predecessor's original
nominal end — and equals independent per-segment refinement — is false. -/
theorem c3_sequential_vs_nominal_counterexample :
    (adjust_endpoints_with_audio charlottesWebConfig
        [⟨0, 1/5, []⟩, ⟨41/100, 4/5, []⟩] (1 :: List.replicate 40 0) 100).map
      Seg.start_sec = [0, 41/100] ∧
    (adjust_endpoints_nominal charlottesWebConfig
        [⟨0, 1/5, []⟩, ⟨41/100, 4/5, []⟩] (1 :: List.replicate 40 0) 100).map
      Seg.start_sec = [0, 13/50] ∧
    (41/100 : ℚ) ≠ 13/50 := by
  refine ⟨?_, ?_, ?_⟩ <;> with_unfolding_all decide

/-- With a previous segment present, the backward search never returns
less than `min start_time (prev_end + 0.05)`: the degenerate paths return
the nominal start, all others clamp to `prev_end + 0.05`. -/
lemma find_silence_before_lower (cfg : RefineConfig) (audio : List ℚ)
    (sr : ℕ) (start_time p : ℚ) (g : Option ℚ) :
    min start_time (p + 1/20) ≤
      find_silence_before cfg audio sr start_time (some p) g := by
  unfold find_silence_before
  dsimp only
  split_ifs with h1 h2
  · exact min_le_left _ _
  · exact min_le_left _ _
  rcases hnm : normMax g _ with _ | M
  · simp only [hnm]; exact min_le_left _ _
  simp only [hnm]
  rcases hfind : List.find? _ _ with _ | i
  · simp only [hfind]; exact le_trans (min_le_right _ _) (le_max_left _ _)
  · simp only [hfind]; exact le_trans (min_le_right _ _) (le_max_left _ _)

/-- With a next segment present, the forward search never returns more
than `max (next_start - 0.05 + end_buffer) (start_time + min_extension)`:
every fallback path returns `next_start - 0.05`, and a found silence run
lies inside the window clipped at `next_start - 0.05`, to which only
`end_buffer` (or the minimum-extension clamp) is added. -/
lemma find_silence_after_upper (cfg : RefineConfig) (audio : List ℚ)
    (sr : ℕ) (start_time w n : ℚ) (g : Option ℚ) (hsr : 1 ≤ sr)
    (ht : 0 ≤ start_time) (hbuf : 0 ≤ cfg.end_buffer) :
    find_silence_after cfg audio sr start_time w (some n) g ≤
      max (n - 1/20 + cfg.end_buffer) (start_time + cfg.min_extension) := by
  unfold find_silence_after
  dsimp only
  have hfb : fsaFallback cfg start_time (some n) = n - 1/20 := rfl
  have hfb_le : n - 1/20 ≤
      max (n - 1/20 + cfg.end_buffer) (start_time + cfg.min_extension) :=
    le_trans (by linarith) (le_max_left _ _)
  split_ifs with h1 h2
  · rw [hfb]; exact hfb_le
  · rw [hfb]; exact hfb_le
  rcases hnm : normMax g (fsaProfile audio sr start_time w (some n)) with _ | M
  · simp only [hnm]; rw [hfb]; exact hfb_le
  simp only [hnm]
  rcases hfind : (List.range ((fsaProfile audio sr start_time w (some n)).length -
      msfOf cfg sr)).find? (quietRun (fsaProfile audio sr start_time w (some n))
        cfg.silence_threshold M (msfOf cfg sr)) with _ | i
  · simp only [hfind]; rw [hfb]; exact hfb_le
  simp only [hfind]
  -- the found offset lies inside the clipped window
  set a := fsaStartSample sr start_time with ha
  set b := fsaEndSample audio sr start_time w (some n) with hb
  have hab : a < b := lt_of_not_le h1
  have ha0 : 0 ≤ a := ha ▸ pyInt_nonneg (by positivity)
  have hsrQ : (0:ℚ) < (sr:ℚ) := by exact_mod_cast Nat.lt_of_lt_of_le Nat.zero_lt_one hsr
  have hi : i < (fsaProfile audio sr start_time w (some n)).length := by
    have hmem := List.mem_of_find?_eq_some hfind
    have := List.mem_range.mp hmem
    omega
  rw [fsaProfile, rms_profile, List.length_map, List.length_range] at hi
  obtain ⟨hlen1, hoff⟩ := numFrames_off_le hi
  have hweq : fsaWindow audio sr start_time w (some n) = pySlice audio a b := by
    rw [fsaWindow, ← ha, ← hb]
  have hlenle : (pySlice audio a b).length ≤ b.toNat - a.toNat :=
    pySlice_length_le audio a b
  have hoffZ : ((i * hopOf sr : ℕ) : ℤ) ≤ b - a - 1 := by
    rw [hweq] at hlen1 hoff
    omega
  have hb1 : 1 ≤ b := by omega
  have hbB : b ≤ pyInt ((n - 1/20) * sr) := by
    rw [hb]
    unfold fsaEndSample
    exact le_trans (min_le_left _ _) (min_le_right _ _)
  have hBQ : (pyInt ((n - 1/20) * sr) : ℚ) ≤ (n - 1/20) * sr :=
    pyInt_cast_le (by omega)
  have hbQ : (b : ℚ) ≤ (n - 1/20) * sr := le_trans (by exact_mod_cast hbB) hBQ
  have haQ : start_time * sr - 1 < (a : ℚ) := ha ▸ sub_one_lt_pyInt _
  have hoffQ : ((i * hopOf sr : ℕ) : ℚ) ≤ (n - 1/20 - start_time) * sr := by
    have h1Q : ((i * hopOf sr : ℕ) : ℚ) ≤ (b : ℚ) - a - 1 := by exact_mod_cast hoffZ
    have hexp : (n - 1/20 - start_time) * sr = (n - 1/20) * sr - start_time * sr := by
      ring
    rw [hexp]
    linarith
  have hstep : ((i * hopOf sr : ℕ) : ℚ) / (sr : ℚ) ≤ n - 1/20 - start_time := by
    rw [div_le_iff₀ hsrQ]
    exact hoffQ
  refine max_le (le_trans ?_ (le_max_left _ _)) (le_max_right _ _)
  linarith

/-- C2 (amended): over the sequential in-place refinement
(`adjust_endpoints_with_audio`), for every segment with a successor the
refined end is at most
`max (successor nominal start - 0.05 + end_buffer) (own nominal end + min_extension)`
(the claimed plain bound `refined end <= successor nominal start` fails,
see the counterexample), and every segment with a predecessor starts at
no less than `min (own nominal start) (predecessor REFINED end + 0.05)`
(the claimed bound against the predecessor's *nominal* end fails, see the
counterexample). -/
theorem c2_refinement_neighbor_bounds (cfg : RefineConfig) (audio : List ℚ)
    (sr : ℕ) (segments : List Seg) (hsr : 1 ≤ sr)
    (hbuf : 0 ≤ cfg.end_buffer)
    (hnn : ∀ s ∈ segments, 0 ≤ s.end_sec)
    (i : ℕ) (si si1 : Seg) (hi : segments[i]? = some si)
    (hi1 : segments[i+1]? = some si1) :
    (∃ ri, (adjust_endpoints_with_audio cfg segments audio sr)[i]? = some ri ∧
      ri.end_sec ≤ max (si1.start_sec - 1/20 + cfg.end_buffer)
        (si.end_sec + cfg.min_extension)) ∧
    (∃ ri ri1,
      (adjust_endpoints_with_audio cfg segments audio sr)[i]? = some ri ∧
      (adjust_endpoints_with_audio cfg segments audio sr)[i+1]? = some ri1 ∧
      min si1.start_sec (ri.end_sec + 1/20) ≤ ri1.start_sec) := by
  have hmem : si ∈ segments := List.getElem?_mem hi
  have hilt : i < segments.length := (List.getElem?_eq_some.mp hi).1
  have hi1lt : i + 1 < segments.length := (List.getElem?_eq_some.mp hi1).1
  unfold adjust_endpoints_with_audio
  set G := maxQ (rms_profile audio (flOf sr) (hopOf sr)) with hG
  have hlen : (adjust_loop cfg audio sr G none segments).length = segments.length :=
    adjust_loop_length cfg audio sr G segments none
  have hiL : i < (adjust_loop cfg audio sr G none segments).length := by
    rw [hlen]; omega
  have hi1L : i + 1 < (adjust_loop cfg audio sr G none segments).length := by
    rw [hlen]; omega
  have hriEq : (adjust_loop cfg audio sr G none segments)[i]? =
      some ((adjust_loop cfg audio sr G none segments)[i]) :=
    List.getElem?_eq_getElem hiL
  have hri1Eq : (adjust_loop cfg audio sr G none segments)[i+1]? =
      some ((adjust_loop cfg audio sr G none segments)[i+1]) :=
    List.getElem?_eq_getElem hi1L
  have hEnd := adjust_loop_get?_end cfg audio sr G segments none i
  rw [hi1, hi, hriEq] at hEnd
  simp only [Option.map_some'] at hEnd
  have hriend : ((adjust_loop cfg audio sr G none segments)[i]).end_sec =
      find_silence_after cfg audio sr si.end_sec cfg.search_window
        (some si1.start_sec) (some G) := Option.some.inj hEnd
  have hStart := adjust_loop_get?_start_succ cfg audio sr G segments none i
  rw [hi1, hriEq, hri1Eq] at hStart
  simp only [Option.map_some'] at hStart
  have hri1start : ((adjust_loop cfg audio sr G none segments)[i+1]).start_sec =
      find_silence_before cfg audio sr si1.start_sec
        (some (((adjust_loop cfg audio sr G none segments)[i]).end_sec))
        (some G) := Option.some.inj hStart
  constructor
  · refine ⟨_, hriEq, ?_⟩
    rw [hriend]
    exact find_silence_after_upper cfg audio sr si.end_sec cfg.search_window
      si1.start_sec (some G) hsr (hnn si hmem) hbuf
  · refine ⟨_, _, hriEq, hri1Eq, ?_⟩
    rw [hri1start]
    exact find_silence_before_lower cfg audio sr si1.start_sec _ (some G)

/-- C2 (counterexample): the ordered merged-segment list `(0,10), (9,30)`
(produced by the merger itself from two overlapping transcript entries
whose combined span exceeds the duration cap) refined against empty audio
gives segment 1 the refined start `9` — the degenerate-window path
returns the nominal start — which is *less* than its predecessor's
nominal end `10`.  This refutes the claim that every refined start is at
least the predecessor's nominal end. -/
theorem c2_refinement_neighbor_counterexample :
    (BuildEvangelion.merge_segments srsMergeConfig
        [⟨0, 10, "あ".data⟩, ⟨9, 30, "い".data⟩]).map segTimes =
      [(0, 10), (9, 30)] ∧
    (adjust_endpoints_with_audio evangelionConfig
        (BuildEvangelion.merge_segments srsMergeConfig
          [⟨0, 10, "あ".data⟩, ⟨9, 30, "い".data⟩]) [] 100).map Seg.start_sec =
      [0, 9] ∧
    ¬ ((10 : ℚ) ≤ 9) := by
  refine ⟨?_, ?_, ?_⟩ <;> with_unfolding_all decide

/-- C2 witness: the amended neighbor-bound theorem applied to a concrete
two-segment list over empty audio. -/
theorem c2_refinement_neighbor_bounds_witness :
    (∀ s ∈ [(⟨0, 1, []⟩ : Seg), ⟨3, 4, []⟩], 0 ≤ s.end_sec) ∧
    ((∃ ri, (adjust_endpoints_with_audio evangelionConfig
        [⟨0, 1, []⟩, ⟨3, 4, []⟩] [] 100)[0]? = some ri ∧
      ri.end_sec ≤ max ((3:ℚ) - 1/20 + evangelionConfig.end_buffer)
        ((1:ℚ) + evangelionConfig.min_extension)) ∧
    (∃ ri ri1,
      (adjust_endpoints_with_audio evangelionConfig
        [⟨0, 1, []⟩, ⟨3, 4, []⟩] [] 100)[0]? = some ri ∧
      (adjust_endpoints_with_audio evangelionConfig
        [⟨0, 1, []⟩, ⟨3, 4, []⟩] [] 100)[1]? = some ri1 ∧
      min (3:ℚ) (ri.end_sec + 1/20) ≤ ri1.start_sec)) :=
  ⟨by with_unfolding_all decide,
   c2_refinement_neighbor_bounds evangelionConfig [] 100
     [⟨0, 1, []⟩, ⟨3, 4, []⟩] (by decide) (by with_unfolding_all decide)
     (by with_unfolding_all decide) 0 ⟨0, 1, []⟩ ⟨3, 4, []⟩
     (by with_unfolding_all decide) (by with_unfolding_all decide)⟩

/-- `find?` over `range' s n` returns the first index satisfying the
predicate. -/
lemma find?_range'_eq_some (p : ℕ → Bool) :
    ∀ (n s i : ℕ), s ≤ i → i < s + n → p i = true →
      (∀ j, s ≤ j → j < i → p j = false) →
      (List.range' s n).find? p = some i := by
  intro n
  induction n with
  | zero => intro s i h1 h2; omega
  | succ n ih =>
    intro s i h1 h2 hp hmin
    rw [List.range'_succ, List.find?_cons]
    rcases Nat.eq_or_lt_of_le h1 with heq | hlt
    · subst heq
      rw [hp]
    · rw [hmin s (le_refl s) hlt]
      exact ih (s + 1) i hlt (by omega) hp fun j hj1 hj2 => hmin j (by omega) hj2

/-- `find?` over `range n` returns the least index satisfying the
predicate. -/
lemma find?_range_eq_some (p : ℕ → Bool) (n i : ℕ) (hi : i < n)
    (hp : p i = true) (hmin : ∀ j < i, p j = false) :
    (List.range n).find? p = some i := by
  rw [List.range_eq_range']
  exact find?_range'_eq_some p n 0 i (Nat.zero_le i) (by omega) hp
    fun j _ hj => hmin j hj

/-- C4 (amended): characterization of `find_silence_after`.  If the
clipped, sufficiently long search window's profile (normalized by `M`)
contains a run of `min_silence_frames` consecutive frames below the
threshold whose start index `i₀` lies strictly before the last possible
position (`i₀ + min_silence_frames < number of frames` — the scan
`range(len(rms_norm) - min_silence_frames)` never tests the run flush
against the window's final frame, see the counterexample) and `i₀` is the
first such index, the result is the window start plus the run's
first-frame offset plus `end_buffer`, clamped to at least
`nominal_end + min_extension`.  Otherwise (window empty or too short, no
energy, or no qualifying run in the scanned range) the result is the
fallback: `next_segment_start - 0.05` when a next segment exists, else
`nominal_end + fallback_buffer`. -/
theorem c4_find_silence_after_characterization (cfg : RefineConfig)
    (audio : List ℚ) (sr : ℕ) (t w : ℚ) (ns g : Option ℚ) :
    (∀ (M : ℚ) (i₀ : ℕ),
      fsaStartSample sr t < fsaEndSample audio sr t w ns →
      ¬ (fsaWindow audio sr t w ns).length < minLenOf cfg sr →
      normMax g (fsaProfile audio sr t w ns) = some M →
      i₀ + msfOf cfg sr < (fsaProfile audio sr t w ns).length →
      quietRun (fsaProfile audio sr t w ns) cfg.silence_threshold M
        (msfOf cfg sr) i₀ = true →
      (∀ j < i₀, quietRun (fsaProfile audio sr t w ns) cfg.silence_threshold M
        (msfOf cfg sr) j = false) →
      find_silence_after cfg audio sr t w ns g =
        max (t + ((i₀ * hopOf sr : ℕ) : ℚ) / (sr : ℚ) + cfg.end_buffer)
          (t + cfg.min_extension)) ∧
    ((∀ M, normMax g (fsaProfile audio sr t w ns) = some M →
        ∀ i, i + msfOf cfg sr < (fsaProfile audio sr t w ns).length →
          quietRun (fsaProfile audio sr t w ns) cfg.silence_threshold M
            (msfOf cfg sr) i = false) →
      find_silence_after cfg audio sr t w ns g = fsaFallback cfg t ns) := by
  constructor
  · intro M i₀ hab hlen hnm hi₀ hq hminimal
    unfold find_silence_after
    dsimp only
    rw [if_neg (not_le.mpr hab), if_neg hlen]
    simp only [hnm]
    rw [find?_range_eq_some _ _ i₀ (by omega) hq fun j hj => hminimal j hj]
  · intro hnone
    unfold find_silence_after
    dsimp only
    split_ifs with h1 h2
    · rfl
    · rfl
    rcases hnm : normMax g (fsaProfile audio sr t w ns) with _ | M
    · simp only [hnm]
    simp only [hnm]
    have hfind : (List.range ((fsaProfile audio sr t w ns).length -
        msfOf cfg sr)).find? (quietRun (fsaProfile audio sr t w ns)
          cfg.silence_threshold M (msfOf cfg sr)) = none := by
      rw [List.find?_eq_none]
      intro x hx
      rw [List.mem_range] at hx
      rw [hnone M hnm x (by omega)]
      simp
    rw [hfind]

set_option maxRecDepth 40000 in
/-- C4 (counterexample): a 20-sample window whose only qualifying silence
run (15 consecutive frames below threshold) starts at frame 5 and ends
flush at the final frame (5 + 15 = 20 = number of frames).  The claim
says such a window yields the run-based refined end
`max (0 + 5·hop/sr + end_buffer) (0 + min_extension) = 0.5`; the code's
scan `range(len(rms_norm) - min_silence_frames)` never tests index 5 and
returns the fallback `0.7`. -/
theorem c4_find_silence_after_counterexample :
    msfOf charlottesWebConfig 100 = 15 ∧
    (fsaProfile ([1, 0, 1, 0, 1] ++ List.replicate 15 0) 100 0 2 none).length = 20 ∧
    quietRun (fsaProfile ([1, 0, 1, 0, 1] ++ List.replicate 15 0) 100 0 2 none)
      charlottesWebConfig.silence_threshold 1 15 5 = true ∧
    normMax (some 1)
      (fsaProfile ([1, 0, 1, 0, 1] ++ List.replicate 15 0) 100 0 2 none) = some 1 ∧
    find_silence_after charlottesWebConfig ([1, 0, 1, 0, 1] ++ List.replicate 15 0)
      100 0 2 none (some 1) = 7/10 ∧
    ¬ ((7/10 : ℚ) =
        max ((0:ℚ) + ((5 * hopOf 100 : ℕ) : ℚ) / 100 + charlottesWebConfig.end_buffer)
          ((0:ℚ) + charlottesWebConfig.min_extension)) := by
  refine ⟨?_, ?_, ?_, ?_, ?_, ?_⟩ <;> with_unfolding_all decide

set_option maxRecDepth 40000 in
/-- C4 witness: the characterization theorem applied to an all-silent
20-sample window, where the first qualifying run starts at frame 0. -/
theorem c4_find_silence_after_witness :
    find_silence_after charlottesWebConfig (List.replicate 20 0) 100 0 2 none
      (some 1) =
      max ((0:ℚ) + ((0 * hopOf 100 : ℕ) : ℚ) / 100 + charlottesWebConfig.end_buffer)
        ((0:ℚ) + charlottesWebConfig.min_extension) :=
  (c4_find_silence_after_characterization charlottesWebConfig
      (List.replicate 20 0) 100 0 2 none (some 1)).1 1 0
    (by with_unfolding_all decide) (by with_unfolding_all decide)
    (by with_unfolding_all decide) (by with_unfolding_all decide)
    (by with_unfolding_all decide) (fun j hj => absurd hj j.not_lt_zero)

section ScaleInvariance

/-- Scaling all samples by `c` scales every frame's mean square by `c²`. -/
lemma frameMeanSq_map_mul (c : ℚ) (samples : List ℚ) (fl off : ℕ) :
    frameMeanSq (samples.map fun x => c * x) fl off =
      c ^ 2 * frameMeanSq samples fl off := by
  unfold frameMeanSq
  rw [← List.map_drop, ← List.map_take, List.map_map]
  have hfun : ((fun x : ℚ => x * x) ∘ fun x => c * x) =
      fun x : ℚ => c ^ 2 * ((fun y : ℚ => y * y) x) := by
    funext x
    simp [Function.comp]
    ring
  rw [hfun, List.sum_map_mul_left, mul_div_assoc]

/-- Scaling all samples by `c` scales the energy profile pointwise by `c²`. -/
lemma rms_profile_map_mul (c : ℚ) (samples : List ℚ) (fl hop : ℕ) :
    rms_profile (samples.map fun x => c * x) fl hop =
      (rms_profile samples fl hop).map fun e => c ^ 2 * e := by
  unfold rms_profile
  rw [List.length_map, List.map_map]
  apply List.map_congr_left
  intro i _
  simp only [Function.comp]
  exact frameMeanSq_map_mul c samples fl (i * hop)

/-- A nonnegative factor commutes with the running maximum. -/
lemma foldl_max_map_mul {k : ℚ} (hk : 0 ≤ k) :
    ∀ (l : List ℚ) (acc : ℚ),
      List.foldl max (k * acc) (l.map fun e => k * e) = k * List.foldl max acc l := by
  intro l
  induction l with
  | nil => intro acc; simp
  | cons x xs ih =>
    intro acc
    simp only [List.map_cons, List.foldl_cons]
    rw [← mul_max_of_nonneg _ _ hk]
    exact ih (max acc x)

/-- A nonnegative factor scales `maxQ`. -/
lemma maxQ_map_mul {k : ℚ} (hk : 0 ≤ k) (l : List ℚ) :
    maxQ (l.map fun e => k * e) = k * maxQ l := by
  have h := foldl_max_map_mul hk l 0
  rw [mul_zero] at h
  exact h

/-- Pointwise scaling commutes with list lookup (with default `0`). -/
lemma getD_map_mul (k : ℚ) (l : List ℚ) (i : ℕ) :
    (l.map fun e => k * e).getD i 0 = k * l.getD i 0 := by
  rcases h : l[i]? with _ | v
  · rw [List.getD_eq_getElem?_getD, List.getD_eq_getElem?_getD,
      List.getElem?_map, h]
    simp
  · rw [List.getD_eq_getElem?_getD, List.getD_eq_getElem?_getD,
      List.getElem?_map, h]
    simp

/-- Scaling profile and normalizer together does not change which frames
count as quiet. -/
lemma quietRun_map_mul {k : ℚ} (hk : 0 < k) (l : List ℚ) (θ M : ℚ)
    (msf i : ℕ) :
    quietRun (l.map fun e => k * e) θ (k * M) msf i = quietRun l θ M msf i := by
  unfold quietRun
  congr 1
  funext j
  rw [getD_map_mul]
  have hmm : θ ^ 2 * (k * M) = k * (θ ^ 2 * M) := by ring
  rw [hmm]
  exact decide_eq_decide.mpr (mul_lt_mul_left hk)

/-- Scaling the global maximum and the profile together scales the chosen
normalizer. -/
lemma normMax_map_mul {k : ℚ} (hk : 0 < k) (g : Option ℚ) (prof : List ℚ) :
    normMax (g.map fun e => k * e) (prof.map fun e => k * e) =
      (normMax g prof).map fun e => k * e := by
  unfold normMax
  have hmax := maxQ_map_mul (le_of_lt hk) prof
  have hiff : ∀ x : ℚ, (0 < k * x) = (0 < x) :=
    fun x => propext (mul_pos_iff_of_pos_left hk)
  rcases g with _ | gm <;>
    simp only [Option.map_none', Option.map_some', hmax, hiff] <;>
    split_ifs <;> rfl

end ScaleInvariance

section ScaleInvarianceSearch

/-- Slicing commutes with pointwise scaling. -/
lemma pySlice_map_mul (c : ℚ) (l : List ℚ) (a b : ℤ) :
    pySlice (l.map fun x => c * x) a b = (pySlice l a b).map fun x => c * x := by
  unfold pySlice
  rw [← List.map_take, ← List.map_drop]

/-- The forward search is invariant under scaling the audio by `c` and the
(squared) global maximum by `c²`. -/
lemma find_silence_after_map_mul (cfg : RefineConfig) (audio : List ℚ)
    (sr : ℕ) (t w : ℚ) (ns g : Option ℚ) {c : ℚ} (hc : 0 < c) :
    find_silence_after cfg (audio.map fun x => c * x) sr t w ns
      (g.map fun e => c ^ 2 * e) = find_silence_after cfg audio sr t w ns g := by
  have hk : (0:ℚ) < c ^ 2 := by positivity
  have hES : fsaEndSample (audio.map fun x => c * x) sr t w ns =
      fsaEndSample audio sr t w ns := by
    unfold fsaEndSample
    rw [List.length_map]
  have hWin : fsaWindow (audio.map fun x => c * x) sr t w ns =
      (fsaWindow audio sr t w ns).map fun x => c * x := by
    unfold fsaWindow
    rw [hES]
    exact pySlice_map_mul c audio _ _
  have hProf : fsaProfile (audio.map fun x => c * x) sr t w ns =
      (fsaProfile audio sr t w ns).map fun e => c ^ 2 * e := by
    unfold fsaProfile
    rw [hWin]
    exact rms_profile_map_mul c _ _ _
  unfold find_silence_after
  dsimp only
  rw [hES, hWin, hProf, List.length_map, normMax_map_mul hk]
  rcases hnm : normMax g (fsaProfile audio sr t w ns) with _ | M
  · simp only [hnm, Option.map_none']
  simp only [hnm, Option.map_some']
  have hq : quietRun ((fsaProfile audio sr t w ns).map fun e => c ^ 2 * e)
      cfg.silence_threshold (c ^ 2 * M) (msfOf cfg sr) =
      quietRun (fsaProfile audio sr t w ns) cfg.silence_threshold M
        (msfOf cfg sr) :=
    funext fun i => quietRun_map_mul hk _ _ _ _ _
  rw [List.length_map, hq]

/-- The backward search is invariant under scaling the audio by `c` and
the (squared) global maximum by `c²`. -/
lemma find_silence_before_map_mul (cfg : RefineConfig) (audio : List ℚ)
    (sr : ℕ) (t : ℚ) (prev g : Option ℚ) {c : ℚ} (hc : 0 < c) :
    find_silence_before cfg (audio.map fun x => c * x) sr t prev
      (g.map fun e => c ^ 2 * e) = find_silence_before cfg audio sr t prev g := by
  have hk : (0:ℚ) < c ^ 2 := by positivity
  unfold find_silence_before
  dsimp only
  set et := (match prev with | some p => p + 1/20 | none => (0:ℚ)) with het
  set a := pyInt (max et (t - cfg.start_search_window) * sr) with ha
  set b := pyInt (t * sr) with hb
  rw [pySlice_map_mul, List.length_map, rms_profile_map_mul, normMax_map_mul hk]
  set P := rms_profile (pySlice audio a b) (flOf sr) (hopOf sr) with hP
  rcases hnm : normMax g P with _ | M
  · simp only [hnm, Option.map_none']
  simp only [hnm, Option.map_some']
  have hpred : (fun i => decide (cfg.silence_threshold ^ 2 * (c ^ 2 * M) ≤
      (P.map fun e => c ^ 2 * e).getD i 0) &&
        quietRun (P.map fun e => c ^ 2 * e) cfg.silence_threshold (c ^ 2 * M)
          (msfOf cfg sr) (i - msfOf cfg sr)) =
      fun i => decide (cfg.silence_threshold ^ 2 * M ≤ P.getD i 0) &&
        quietRun P cfg.silence_threshold M (msfOf cfg sr) (i - msfOf cfg sr) := by
    funext i
    rw [getD_map_mul, quietRun_map_mul hk]
    congr 1
    have hmm : cfg.silence_threshold ^ 2 * (c ^ 2 * M) =
        c ^ 2 * (cfg.silence_threshold ^ 2 * M) := by ring
    rw [hmm]
    exact decide_eq_decide.mpr (mul_le_mul_left hk)
  rw [hpred, List.length_map]

end ScaleInvarianceSearch

/-- The refinement loop is invariant under scaling the audio by `c` and
the (squared) global maximum by `c²`. -/
lemma adjust_loop_map_mul (cfg : RefineConfig) (audio : List ℚ) (sr : ℕ)
    (G : ℚ) {c : ℚ} (hc : 0 < c) :
    ∀ (segs : List Seg) (p : Option ℚ),
      adjust_loop cfg (audio.map fun x => c * x) sr (c ^ 2 * G) p segs =
        adjust_loop cfg audio sr G p segs := by
  intro segs
  induction segs with
  | nil => intro p; rfl
  | cons seg rest ih =>
    intro p
    simp only [adjust_loop]
    have h1 : find_silence_before cfg (audio.map fun x => c * x) sr
        seg.start_sec p (some (c ^ 2 * G)) =
        find_silence_before cfg audio sr seg.start_sec p (some G) := by
      have h := find_silence_before_map_mul cfg audio sr seg.start_sec p
        (some G) hc
      simpa using h
    have h2 : find_silence_after cfg (audio.map fun x => c * x) sr
        seg.end_sec cfg.search_window (rest.head?.map Seg.start_sec)
        (some (c ^ 2 * G)) =
        find_silence_after cfg audio sr seg.end_sec cfg.search_window
          (rest.head?.map Seg.start_sec) (some G) := by
      have h := find_silence_after_map_mul cfg audio sr seg.end_sec
        cfg.search_window (rest.head?.map Seg.start_sec) (some G) hc
      simpa using h
    rw [h1, h2, ih]

/-- C5: refinement is invariant under positive amplitude scaling — for
every positive constant `c` and every segment list,
`adjust_endpoints_with_audio` on the audio with every sample multiplied
by `c` yields exactly the same refined segments as on the original audio
(every energy comparison is normalized by the global maximum energy of
the same audio, in exact rational arithmetic). -/
theorem c5_scale_invariance (cfg : RefineConfig) (segments : List Seg)
    (audio : List ℚ) (sr : ℕ) (c : ℚ) (hc : 0 < c) :
    adjust_endpoints_with_audio cfg segments (audio.map fun x => c * x) sr =
      adjust_endpoints_with_audio cfg segments audio sr := by
  unfold adjust_endpoints_with_audio
  dsimp only
  rw [rms_profile_map_mul, maxQ_map_mul (le_of_lt (pow_pos hc 2))]
  exact adjust_loop_map_mul cfg audio sr _ hc segments none

/-- C5 witness: scale invariance applied at `c = 2` on a concrete
segment and audio. -/
theorem c5_scale_invariance_witness :
    (0:ℚ) < 2 ∧
    adjust_endpoints_with_audio charlottesWebConfig [⟨0, 1, []⟩]
        (List.map (fun x => 2 * x) [1, 0, 0]) 100 =
      adjust_endpoints_with_audio charlottesWebConfig [⟨0, 1, []⟩]
        [1, 0, 0] 100 :=
  ⟨by norm_num,
   c5_scale_invariance charlottesWebConfig [⟨0, 1, []⟩] [1, 0, 0] 100 2
     (by norm_num)⟩
